import Mathlib

/-!
Verification development for the Gaussian-process regression engine of the
`asi-labs` repository (lab week 2, `Gaussian_Process_Regression.ipynb`).

The notebook is exercise material: some functions (`cdist`, `gradient_update`,
the grid-search skeleton) are given in full, while others (`rbf_kernel`,
`predict_f_posterior`, `marginal_likelihood`, the training loop) are blank
exercise cells whose intended behaviour is fixed by the accompanying
specification.  Functions present in the source are embedded directly from it;
the blank ones are modelled from the specification and are marked as such in
their doc comments.

Machine floats are embedded as real numbers, so all identities hold exactly.
-/

namespace GPR

open Real Matrix

/-- A `d`-dimensional input point (one row of an input array). -/
abbrev Pt (d : ℕ) : Type := Fin d → ℝ

/-- Embedding of `cdist(A, B)` from the source notebook: entry `(i, j)` of
`A_dots + B_dots - 2 * A.dot(B.T)`, i.e. the symmetric expansion
`‖aᵢ‖² + ‖bⱼ‖² − 2·aᵢ·bⱼ` of the pairwise squared Euclidean distance. -/
def cdist {M N d : ℕ} (A : Fin M → Pt d) (B : Fin N → Pt d) :
    Matrix (Fin M) (Fin N) ℝ :=
  fun i j =>
    (∑ k, A i k * A i k) + (∑ k, B j k * B j k) - 2 * ∑ k, A i k * B j k

/-- Modelled from the spec: the body of `rbf_kernel(params, X1, X2)` is a blank
exercise cell; the specification fixes it as
`variance * exp(-‖x−x′‖² / (2·lengthscale²))`, with the squared distances
computed by the source's `cdist`.  The `params` dictionary is passed as its two
entries `lengthscale` and `variance`. -/
noncomputable def rbf_kernel {M N d : ℕ} (lengthscale variance : ℝ)
    (X1 : Fin M → Pt d) (X2 : Fin N → Pt d) : Matrix (Fin M) (Fin N) ℝ :=
  fun i j => variance * Real.exp (-(cdist X1 X2 i j) / (2 * lengthscale ^ 2))

/-- The single point set `X = [[0.0]]` of the spec's concrete RBF scenario. -/
def ptZero : Fin 1 → Pt 1 := fun _ _ => 0

/-! ### Cholesky solver (spec §4.3)

Modelled from the spec: the notebook instructs the student to use a Cholesky
factorization and triangular solves instead of explicit inversion, but the
corresponding cells are blank exercises.  `factorize` is the standard
outer-product Cholesky recursion, failing (returning `none`, the embedding of a
`NumericalError`) whenever a pivot is not strictly positive; `solve` is a
forward then a backward triangular substitution against the factor. -/

/-- Modelled from the spec: `factorize(matrix) -> CholeskyFactor`, failing with
a `NumericalError` (`none`) if the input is not positive-definite to working
precision.  Recursive outer-product form: pivot `K 0 0`, scaled first column,
then the Schur complement. -/
noncomputable def factorize :
    (n : ℕ) → Matrix (Fin n) (Fin n) ℝ → Option (Matrix (Fin n) (Fin n) ℝ)
  | 0, _ => some 0
  | (n + 1), K =>
    if 0 < K 0 0 then
      (factorize n
          (fun i j =>
            K i.succ j.succ -
              K i.succ 0 / Real.sqrt (K 0 0) *
                (K j.succ 0 / Real.sqrt (K 0 0)))).map
        fun L₁ =>
          Fin.cons (Fin.cons (Real.sqrt (K 0 0)) 0)
            fun i => Fin.cons (K i.succ 0 / Real.sqrt (K 0 0)) (L₁ i)
    else none

/-- Forward substitution: solves `L · z = y` for lower-triangular `L`. -/
noncomputable def forwardSolve :
    (n : ℕ) → Matrix (Fin n) (Fin n) ℝ → (Fin n → ℝ) → (Fin n → ℝ)
  | 0, _, _ => Fin.elim0
  | (n + 1), L, y =>
    Fin.cons (y 0 / L 0 0)
      (forwardSolve n (fun i j => L i.succ j.succ)
        fun i => y i.succ - L i.succ 0 * (y 0 / L 0 0))

/-- Backward substitution: solves `U · x = y` for upper-triangular `U`. -/
noncomputable def backSolve :
    (n : ℕ) → Matrix (Fin n) (Fin n) ℝ → (Fin n → ℝ) → (Fin n → ℝ)
  | 0, _, _ => Fin.elim0
  | (n + 1), U, y =>
    let xt := backSolve n (fun i j => U i.succ j.succ) fun i => y i.succ
    Fin.cons ((y 0 - ∑ j, U 0 j.succ * xt j) / U 0 0) xt

/-- Modelled from the spec: `solve(factor, rhs)` performs forward then backward
triangular substitution against the Cholesky factor, in place of a direct
matrix inversion. -/
noncomputable def solve {n : ℕ} (L : Matrix (Fin n) (Fin n) ℝ)
    (y : Fin n → ℝ) : Fin n → ℝ :=
  backSolve n Lᵀ (forwardSolve n L y)

/-! ### Gram matrix, posterior predictor, marginal likelihood -/

/-- The noise-regularized Gram matrix `κ(X, X) + sn2 · I` (notebook's `K_y`),
for a pointwise kernel `κ` (the hyperparameters are folded into `κ`). -/
noncomputable def gram {n d : ℕ} (κ : Pt d → Pt d → ℝ) (sn2 : ℝ)
    (X : Fin n → Pt d) : Matrix (Fin n) (Fin n) ℝ :=
  fun i j => κ (X i) (X j) + if i = j then sn2 else 0

/-- Modelled from the spec: the body of
`predict_f_posterior(params, kernel_fn, X, y, Xt, sn2)` is a blank exercise
cell; the spec fixes it as: factorize `K = κ(X,X) + sn2·I`, solve for
`α = K⁻¹y` via the factor, `mean = K_star · α`,
`covariance = K_starstar − vᵀ·v` with `L·v = K_starᵀ` columnwise.  Returns
`none` on a `NumericalError` from factorization. -/
noncomputable def predict_f_posterior {n m d : ℕ} (κ : Pt d → Pt d → ℝ)
    (X : Fin n → Pt d) (y : Fin n → ℝ) (Xt : Fin m → Pt d) (sn2 : ℝ) :
    Option ((Fin m → ℝ) × Matrix (Fin m) (Fin m) ℝ) :=
  (factorize n (gram κ sn2 X)).map fun L =>
    (fun q => (fun i => κ (Xt q) (X i)) ⬝ᵥ solve L y,
     fun q q' =>
       κ (Xt q) (Xt q') -
         forwardSolve n L (fun i => κ (Xt q) (X i)) ⬝ᵥ
           forwardSolve n L (fun i => κ (Xt q') (X i)))

/-- Modelled from the spec: the body of
`marginal_likelihood(params, kernel_fn, X, y, sn2)` is a blank exercise cell;
the spec fixes it as `−½·αᵀy − ½·(2·Σ log diag L) − (n/2)·log 2π`, computed
through the Cholesky factor `L` of `K = κ(X,X) + sn2·I` with `α = solve(L, y)`.
Returns `none` on a `NumericalError` from factorization. -/
noncomputable def marginal_likelihood {n d : ℕ} (κ : Pt d → Pt d → ℝ)
    (X : Fin n → Pt d) (y : Fin n → ℝ) (sn2 : ℝ) : Option ℝ :=
  (factorize n (gram κ sn2 X)).map fun L =>
    -(1 / 2) * (solve L y ⬝ᵥ y) - (1 / 2) * (2 * ∑ i, Real.log (L i i)) -
      (n / 2 : ℝ) * Real.log (2 * Real.pi)

/-- Modelled from the spec: the retry jitter, "a small diagonal jitter ...
(e.g., a fraction of the matrix's average diagonal value)": one part in `10⁶`
of the average diagonal entry, added to the diagonal. -/
noncomputable def addJitter {n : ℕ} (K : Matrix (Fin n) (Fin n) ℝ) :
    Matrix (Fin n) (Fin n) ℝ :=
  fun i j => K i j + if i = j then (∑ k, K k k) / n / 10 ^ 6 else 0

/-- Modelled from the spec: the factorization policy of the Gram Matrix
Builder — attempt `factorize`; on a `NumericalError` attempt exactly one retry
with the diagonal jitter added; if that also fails, propagate the error
(`none`). -/
noncomputable def factorizeWithJitter {n : ℕ}
    (K : Matrix (Fin n) (Fin n) ℝ) : Option (Matrix (Fin n) (Fin n) ℝ) :=
  match factorize n K with
  | some L => some L
  | none => factorize n (addJitter K)

/-- Embedding of `gradient_update(params, gradients, learning_rate)` from the
source: `jax.tree_map(lambda p, g: p + learning_rate * g, params, gradients)`.
The hyperparameter dictionaries are embedded as association lists; `tree_map`
requires the two dictionaries to have the same key structure (else it raises),
embedded as the `none` branch. -/
noncomputable def gradient_update (params gradients : List (String × ℝ))
    (learning_rate : ℝ) : Option (List (String × ℝ)) :=
  if params.map Prod.fst = gradients.map Prod.fst then
    some (List.zipWith (fun p g => (p.1, p.2 + learning_rate * g.2))
      params gradients)
  else none

/-- Modelled from the spec: the log-transformed gradient-ascent training loop
(the loop cell is a blank exercise; the notebook's closing "pro tip" and the
spec fix it): optimize `ψ = log θ`, converting the gradient by the chain rule
`∂L/∂ψ = θ · ∂L/∂θ`, step `ψ' = ψ + η · θ · ∂L/∂θ`, and map back
`θ' = exp ψ'`.  `grad θ` is the gradient of the marginal likelihood at `θ`
(kept abstract), `Key` indexes the hyperparameter dictionary. -/
noncomputable def logSpaceAscent {Key : Type}
    (grad : (Key → ℝ) → (Key → ℝ)) (η : ℝ) :
    ℕ → (Key → ℝ) → (Key → ℝ)
  | 0, θ => θ
  | (t + 1), θ =>
    logSpaceAscent grad η t
      fun k => Real.exp (Real.log (θ k) + η * (θ k * grad θ k))

/-- The grid of lengthscales from the source's grid-search cell:
`np.linspace(1, 20, 51)`. -/
noncomputable def lengthscales : Fin 51 → ℝ :=
  fun i => 1 + (i : ℕ) * (20 - 1) / (51 - 1)

/-- The grid of variances from the source's grid-search cell:
`np.linspace(1, 20, 50)`. -/
noncomputable def variances : Fin 50 → ℝ :=
  fun j => 1 + (j : ℕ) * (20 - 1) / (50 - 1)

/-- First-occurrence argmax over a list, with an accumulator (the embedding of
`np.argmax` over the flattened `marginal_ll` matrix). -/
noncomputable def argmaxAux {α : Type} (f : α → ℝ) : List α → α → α
  | [], b => b
  | a :: l, b => argmaxAux f l (if f b < f a then a else b)

/-- All grid positions `(i, j)` of the `51 × 50` grid in row-major order. -/
def gridIndices : List (Fin 51 × Fin 50) :=
  (List.finRange 51).bind fun i => (List.finRange 50).map fun j => (i, j)

/-- Embedding of the grid-search cell: fill `marginal_ll[i, j]` with the
objective at `(lengthscales[i], variances[j])` and select
`best = unravel_index(argmax(marginal_ll))`.  The objective `f` is the log
marginal likelihood on the fixed dataset (the dataset and the blank
`marginal_ll[i, j] = ...` line are modelled by keeping `f` abstract). -/
noncomputable def gridSearchBest (f : ℝ → ℝ → ℝ) : Fin 51 × Fin 50 :=
  argmaxAux (fun p => f (lengthscales p.1) (variances p.2)) gridIndices (0, 0)

/-- Each entry of `cdist` equals the true squared Euclidean distance. -/
theorem cdist_eq_sum_sq {M N d : ℕ} (A : Fin M → Pt d) (B : Fin N → Pt d)
    (i : Fin M) (j : Fin N) :
    cdist A B i j = ∑ k, (A i k - B j k) ^ 2 := by
  unfold cdist
  rw [Finset.mul_sum]
  rw [← Finset.sum_add_distrib, ← Finset.sum_sub_distrib]
  refine Finset.sum_congr rfl fun k _ => by ring

/-- C2: the pairwise squared-distance computation `cdist` is the symmetric
expansion `‖a‖² + ‖b‖² − 2·a·b`, and (in exact arithmetic) every entry of the
resulting matrix is non-negative. -/
theorem cdist_symmetric_expansion_nonneg {M N d : ℕ}
    (A : Fin M → Pt d) (B : Fin N → Pt d) (i : Fin M) (j : Fin N) :
    cdist A B i j =
      (∑ k, A i k * A i k) + (∑ k, B j k * B j k) - 2 * ∑ k, A i k * B j k
    ∧ 0 ≤ cdist A B i j := by
  constructor
  · rfl
  · rw [cdist_eq_sum_sq]
    exact Finset.sum_nonneg fun k _ => sq_nonneg _

/-- C1: with strictly positive lengthscale and variance, each entry of the RBF
kernel matrix is `variance · exp(−‖x−x′‖²/(2·lengthscale²))`; moreover in the
concrete scenario lengthscale = 1, variance = 1, `X = [[0.0]]`, the kernel
matrix `κ(X, X)` is the 1×1 matrix `[[1.0]]`. -/
theorem rbf_kernel_formula {M N d : ℕ} (lengthscale variance : ℝ)
    (hl : 0 < lengthscale) (hv : 0 < variance)
    (X1 : Fin M → Pt d) (X2 : Fin N → Pt d) (i : Fin M) (j : Fin N) :
    rbf_kernel lengthscale variance X1 X2 i j =
      variance *
        Real.exp (-(∑ k, (X1 i k - X2 j k) ^ 2) / (2 * lengthscale ^ 2))
    ∧ rbf_kernel 1 1 ptZero ptZero 0 0 = 1 := by
  constructor
  · rw [rbf_kernel, cdist_eq_sum_sq]
  · show (1 : ℝ) * Real.exp (-(cdist ptZero ptZero 0 0) / (2 * 1 ^ 2)) = 1
    have h0 : cdist ptZero ptZero 0 0 = 0 := by
      rw [cdist_eq_sum_sq]
      simp [ptZero]
    rw [h0]
    norm_num

/-- Witness for C1 at lengthscale = 1, variance = 1,
`X1 = X2 = [[0.0]]`. -/
theorem rbf_kernel_formula_witness :
    rbf_kernel 1 1 ptZero ptZero 0 0 =
      1 * Real.exp (-(∑ k, (ptZero 0 k - ptZero 0 k) ^ 2) / (2 * 1 ^ 2)) :=
  (rbf_kernel_formula 1 1 one_pos one_pos ptZero ptZero 0 0).1

/-- A successful `factorize` produces a lower-triangular factor. -/
theorem factorize_lower {n : ℕ} {K L : Matrix (Fin n) (Fin n) ℝ}
    (h : factorize n K = some L) :
    ∀ i j : Fin n, i < j → L i j = 0 := by
  induction n with
  | zero => exact fun i => i.elim0
  | succ n ih =>
    rw [factorize] at h
    by_cases hpos : 0 < K 0 0
    · rw [if_pos hpos, Option.map_eq_some'] at h
      obtain ⟨L₁, hL₁, rfl⟩ := h
      intro i j
      induction i using Fin.cases with
      | zero =>
        induction j using Fin.cases with
        | zero => exact fun hij => absurd hij (lt_irrefl _)
        | succ j' => exact fun _ => by simp [Fin.cons_zero, Fin.cons_succ]
      | succ i' =>
        induction j using Fin.cases with
        | zero => exact fun hij => absurd hij (Fin.not_lt_zero _)
        | succ j' =>
          intro hij
          have hij' : i' < j' := Fin.succ_lt_succ_iff.mp hij
          simp [Fin.cons_succ, ih hL₁ i' j' hij']
    · rw [if_neg hpos] at h
      exact absurd h (by simp)

/-- A successful `factorize` produces a factor with strictly positive
diagonal. -/
theorem factorize_diag_pos {n : ℕ} {K L : Matrix (Fin n) (Fin n) ℝ}
    (h : factorize n K = some L) :
    ∀ i : Fin n, 0 < L i i := by
  induction n with
  | zero => exact fun i => i.elim0
  | succ n ih =>
    rw [factorize] at h
    by_cases hpos : 0 < K 0 0
    · rw [if_pos hpos, Option.map_eq_some'] at h
      obtain ⟨L₁, hL₁, rfl⟩ := h
      intro i
      refine Fin.cases ?_ (fun i' => ?_) i
      · simpa [Fin.cons_zero] using Real.sqrt_pos.mpr hpos
      · simpa [Fin.cons_succ] using ih hL₁ i'
    · rw [if_neg hpos] at h
      exact absurd h (by simp)

/-- A successful `factorize` of a symmetric matrix returns a genuine Cholesky
factor: `L * Lᵀ = K`. -/
theorem factorize_mul {n : ℕ} {K L : Matrix (Fin n) (Fin n) ℝ}
    (hsym : ∀ i j, K i j = K j i) (h : factorize n K = some L) :
    L * Lᵀ = K := by
  induction n with
  | zero =>
    ext i j
    exact i.elim0
  | succ n ih =>
    rw [factorize] at h
    by_cases hpos : 0 < K 0 0
    · rw [if_pos hpos, Option.map_eq_some'] at h
      obtain ⟨L₁, hL₁, rfl⟩ := h
      have hsqrt : Real.sqrt (K 0 0) * Real.sqrt (K 0 0) = K 0 0 :=
        Real.mul_self_sqrt hpos.le
      have hsne : Real.sqrt (K 0 0) ≠ 0 := (Real.sqrt_pos.mpr hpos).ne'
      have hSsym : ∀ i j : Fin n,
          (K i.succ j.succ -
            K i.succ 0 / Real.sqrt (K 0 0) *
              (K j.succ 0 / Real.sqrt (K 0 0))) =
          (K j.succ i.succ -
            K j.succ 0 / Real.sqrt (K 0 0) *
              (K i.succ 0 / Real.sqrt (K 0 0))) := by
        intro i j
        rw [hsym i.succ j.succ]
        ring
      have hmul := ih hSsym hL₁
      ext i j
      have hentry : ∀ a b : Fin n, (L₁ * L₁ᵀ) a b =
          K a.succ b.succ -
            K a.succ 0 / Real.sqrt (K 0 0) *
              (K b.succ 0 / Real.sqrt (K 0 0)) := by
        intro a b
        rw [hmul]
      rw [Matrix.mul_apply]
      refine Fin.cases ?_ (fun i' => ?_) i
      · refine Fin.cases ?_ (fun j' => ?_) j
        · rw [Fin.sum_univ_succ]
          simp [Fin.cons_zero, Fin.cons_succ, Matrix.transpose_apply, hsqrt]
        · rw [Fin.sum_univ_succ]
          simp only [Fin.cons_zero, Fin.cons_succ, Matrix.transpose_apply]
          rw [hsym 0 j'.succ]
          field_simp
      · refine Fin.cases ?_ (fun j' => ?_) j
        · rw [Fin.sum_univ_succ]
          simp only [Fin.cons_zero, Fin.cons_succ, Matrix.transpose_apply]
          field_simp
        · rw [Fin.sum_univ_succ]
          simp only [Fin.cons_zero, Fin.cons_succ, Matrix.transpose_apply]
          have := hentry i' j'
          rw [Matrix.mul_apply] at this
          simp only [Matrix.transpose_apply] at this
          rw [this]
          ring
    · rw [if_neg hpos] at h
      exact absurd h (by simp)

/-- Forward substitution is correct on lower-triangular matrices with nonzero
diagonal. -/
theorem forwardSolve_correct {n : ℕ} (L : Matrix (Fin n) (Fin n) ℝ)
    (hlow : ∀ i j, i < j → L i j = 0) (hd : ∀ i, L i i ≠ 0) (y : Fin n → ℝ) :
    L *ᵥ forwardSolve n L y = y := by
  induction n with
  | zero =>
    ext i
    exact i.elim0
  | succ n ih =>
    ext i
    rw [forwardSolve]
    have hsub := ih (fun i j => L i.succ j.succ)
      (fun i j hij => hlow i.succ j.succ (Fin.succ_lt_succ_iff.mpr hij))
      (fun i => hd i.succ)
      (fun i => y i.succ - L i.succ 0 * (y 0 / L 0 0))
    induction i using Fin.cases with
    | zero =>
      rw [Matrix.mulVec, dotProduct, Fin.sum_univ_succ]
      have hz : ∀ j : Fin n, L 0 j.succ = 0 := fun j =>
        hlow 0 j.succ (Fin.succ_pos j)
      simp only [Fin.cons_zero, Fin.cons_succ, hz, zero_mul,
        Finset.sum_const_zero, add_zero]
      exact mul_div_cancel₀ _ (hd 0)
    | succ i' =>
      rw [Matrix.mulVec, dotProduct, Fin.sum_univ_succ]
      have htail := congrFun hsub i'
      rw [Matrix.mulVec, dotProduct] at htail
      simp only [Fin.cons_zero, Fin.cons_succ]
      rw [htail]
      ring

/-- Backward substitution is correct on upper-triangular matrices with nonzero
diagonal. -/
theorem backSolve_correct {n : ℕ} (U : Matrix (Fin n) (Fin n) ℝ)
    (hup : ∀ i j, j < i → U i j = 0) (hd : ∀ i, U i i ≠ 0) (y : Fin n → ℝ) :
    U *ᵥ backSolve n U y = y := by
  induction n with
  | zero =>
    ext i
    exact i.elim0
  | succ n ih =>
    ext i
    rw [backSolve]
    have hsub := ih (fun i j => U i.succ j.succ)
      (fun i j hij => hup i.succ j.succ (Fin.succ_lt_succ_iff.mpr hij))
      (fun i => hd i.succ)
      (fun i => y i.succ)
    induction i using Fin.cases with
    | zero =>
      rw [Matrix.mulVec, dotProduct, Fin.sum_univ_succ]
      simp only [Fin.cons_zero, Fin.cons_succ]
      rw [mul_div_cancel₀ _ (hd 0)]
      ring
    | succ i' =>
      rw [Matrix.mulVec, dotProduct, Fin.sum_univ_succ]
      have htail := congrFun hsub i'
      rw [Matrix.mulVec, dotProduct] at htail
      have hz : U i'.succ 0 = 0 := hup i'.succ 0 (Fin.succ_pos i')
      simp only [Fin.cons_zero, Fin.cons_succ, hz, zero_mul, zero_add]
      exact htail

/-- `solve` against a successful Cholesky factor of a symmetric `K` solves
`K · x = y`. -/
theorem solve_correct {n : ℕ} {K L : Matrix (Fin n) (Fin n) ℝ}
    (hsym : ∀ i j, K i j = K j i) (h : factorize n K = some L)
    (y : Fin n → ℝ) :
    K *ᵥ solve L y = y := by
  have hlow := factorize_lower h
  have hdpos := factorize_diag_pos h
  have hd : ∀ i, L i i ≠ 0 := fun i => (hdpos i).ne'
  have hup : ∀ i j : Fin n, j < i → Lᵀ i j = 0 := fun i j hij =>
    hlow j i hij
  have hdT : ∀ i, Lᵀ i i ≠ 0 := fun i => hd i
  have hback := backSolve_correct Lᵀ hup hdT (forwardSolve n L y)
  have hfwd := forwardSolve_correct L hlow hd y
  rw [← factorize_mul hsym h, solve, ← Matrix.mulVec_mulVec, hback, hfwd]

/-- The Gram matrix of a symmetric kernel is symmetric. -/
theorem gram_symm {n d : ℕ} (κ : Pt d → Pt d → ℝ)
    (hκ : ∀ p q, κ p q = κ q p) (sn2 : ℝ) (X : Fin n → Pt d) :
    ∀ i j, gram κ sn2 X i j = gram κ sn2 X j i := by
  intro i j
  unfold gram
  rw [hκ]
  congr 1
  by_cases h : i = j
  · subst h
    rfl
  · rw [if_neg h, if_neg fun hh => h hh.symm]

/-- C3: with zero training points the posterior predictor returns the prior:
zero mean vector and covariance `κ(query, query)`.  The kernel `κ` (with its
hyperparameters folded in), the targets, the query set and the noise variance
are arbitrary. -/
theorem predict_f_posterior_empty_prior {m d : ℕ} (κ : Pt d → Pt d → ℝ)
    (X : Fin 0 → Pt d) (y : Fin 0 → ℝ) (Xt : Fin m → Pt d) (sn2 : ℝ) :
    predict_f_posterior κ X y Xt sn2 =
      some (fun _ => 0, fun q q' => κ (Xt q) (Xt q')) := by
  rw [predict_f_posterior, factorize, Option.map_some']
  refine congrArg some (Prod.ext ?_ ?_)
  · funext q
    simp [dotProduct]
  · funext q q'
    simp [dotProduct]

/-- The determinant of the Gram matrix is the squared product of the diagonal
of its Cholesky factor. -/
theorem factorize_det_eq {n : ℕ} {K L : Matrix (Fin n) (Fin n) ℝ}
    (hsym : ∀ i j, K i j = K j i) (h : factorize n K = some L) :
    K.det = (∏ i, L i i) ^ 2 := by
  have hmul := factorize_mul hsym h
  have hlow := factorize_lower h
  have hLdet : L.det = ∏ i, L i i := by
    rw [← Matrix.det_transpose]
    exact Matrix.det_of_upperTriangular fun i j hij => hlow j i hij
  rw [← hmul, Matrix.det_mul, Matrix.det_transpose, hLdet, sq]

/-- A matrix with a successful Cholesky factorization has positive
determinant. -/
theorem factorize_det_pos {n : ℕ} {K L : Matrix (Fin n) (Fin n) ℝ}
    (hsym : ∀ i j, K i j = K j i) (h : factorize n K = some L) :
    0 < K.det := by
  rw [factorize_det_eq hsym h]
  exact pow_pos (Finset.prod_pos fun i _ => factorize_diag_pos h i) 2

/-- The Cholesky-route solution coincides with applying the true matrix
inverse. -/
theorem factorize_inv_mulVec {n : ℕ} {K L : Matrix (Fin n) (Fin n) ℝ}
    (hsym : ∀ i j, K i j = K j i) (h : factorize n K = some L)
    (y : Fin n → ℝ) :
    K⁻¹ *ᵥ y = solve L y := by
  have hdet : IsUnit K.det :=
    isUnit_iff_ne_zero.mpr (factorize_det_pos hsym h).ne'
  have hs := solve_correct hsym h y
  calc K⁻¹ *ᵥ y = K⁻¹ *ᵥ (K *ᵥ solve L y) := by rw [hs]
    _ = (K⁻¹ * K) *ᵥ solve L y := Matrix.mulVec_mulVec _ _ _
    _ = solve L y := by rw [Matrix.nonsing_inv_mul K hdet, Matrix.one_mulVec]

/-- The log-determinant through the factor: `log |K| = 2 · Σ log(diag L)`. -/
theorem factorize_log_det {n : ℕ} {K L : Matrix (Fin n) (Fin n) ℝ}
    (hsym : ∀ i j, K i j = K j i) (h : factorize n K = some L) :
    Real.log K.det = 2 * ∑ i, Real.log (L i i) := by
  rw [factorize_det_eq hsym h, Real.log_pow,
    Real.log_prod _ _ fun i _ => (factorize_diag_pos h i).ne']
  norm_num

/-- C4: the marginal likelihood computed through the Cholesky factor (as the
spec prescribes: `log|K| = 2·Σ log diag L`, `yᵀK⁻¹y = αᵀy` with `α` from
triangular solves) equals the closed form
`−½·yᵀK⁻¹y − ½·log|K| − (n/2)·log 2π` on the noise-regularized Gram matrix. -/
theorem marginal_likelihood_closed_form {n d : ℕ} (κ : Pt d → Pt d → ℝ)
    (hκ : ∀ p q, κ p q = κ q p) (X : Fin n → Pt d) (y : Fin n → ℝ) (sn2 : ℝ)
    (L : Matrix (Fin n) (Fin n) ℝ)
    (hL : factorize n (gram κ sn2 X) = some L) :
    marginal_likelihood κ X y sn2 =
      some (-(1 / 2) * (y ⬝ᵥ (gram κ sn2 X)⁻¹ *ᵥ y) -
        (1 / 2) * Real.log (gram κ sn2 X).det -
        (n / 2 : ℝ) * Real.log (2 * Real.pi)) := by
  have hsym := gram_symm κ hκ sn2 X
  rw [marginal_likelihood, hL, Option.map_some']
  rw [factorize_inv_mulVec hsym hL y, factorize_log_det hsym hL,
    dotProduct_comm y (solve L y)]

/-- C7: the factorize-then-solve pipeline is a left inverse of multiplication
by `K`: `solve(factorize(K), K·v) = v` whenever `K` is symmetric and
factorization succeeds (positive-definiteness to working precision). -/
theorem solve_factorize_roundtrip {n : ℕ} {K L : Matrix (Fin n) (Fin n) ℝ}
    (hsym : ∀ i j, K i j = K j i) (hL : factorize n K = some L)
    (v : Fin n → ℝ) :
    solve L (K *ᵥ v) = v := by
  have h1 := solve_correct hsym hL (K *ᵥ v)
  have hinv : ∀ x : Fin n → ℝ, K⁻¹ *ᵥ (K *ᵥ x) = x := by
    intro x
    rw [Matrix.mulVec_mulVec,
      Matrix.nonsing_inv_mul K
        (isUnit_iff_ne_zero.mpr (factorize_det_pos hsym hL).ne'),
      Matrix.one_mulVec]
  calc solve L (K *ᵥ v) = K⁻¹ *ᵥ (K *ᵥ solve L (K *ᵥ v)) := (hinv _).symm
    _ = K⁻¹ *ᵥ (K *ᵥ v) := by rw [h1]
    _ = v := hinv v

/-- C8: the retry policy of the factorization — the overall operation fails
(raises `NumericalError`, i.e. `none`) exactly when both the plain attempt and
the single jittered retry fail; and any returned factor is a genuine Cholesky
factor of `K` or of its jittered version, never a degenerate result. -/
theorem factorizeWithJitter_policy {n : ℕ} (K : Matrix (Fin n) (Fin n) ℝ)
    (hsym : ∀ i j, K i j = K j i) :
    (factorizeWithJitter K = none ↔
      factorize n K = none ∧ factorize n (addJitter K) = none)
    ∧ ∀ L, factorizeWithJitter K = some L →
        L * Lᵀ = K ∨ L * Lᵀ = addJitter K := by
  have hjsym : ∀ i j, addJitter K i j = addJitter K j i := by
    intro i j
    unfold addJitter
    rw [hsym]
    congr 1
    by_cases h : i = j
    · subst h
      rfl
    · rw [if_neg h, if_neg fun hh => h hh.symm]
  constructor
  · cases h : factorize n K with
    | some L₀ => simp [factorizeWithJitter, h]
    | none => simp [factorizeWithJitter, h]
  · intro L hL
    cases h : factorize n K with
    | some L₀ =>
      have heq : L₀ = L := by
        have : factorizeWithJitter K = some L₀ := by
          rw [factorizeWithJitter, h]
        rw [this] at hL
        exact Option.some_inj.mp hL
      subst heq
      exact Or.inl (factorize_mul hsym h)
    | none =>
      have hj : factorize n (addJitter K) = some L := by
        have : factorizeWithJitter K = factorize n (addJitter K) := by
          rw [factorizeWithJitter, h]
        rw [this] at hL
        exact hL
      exact Or.inr (factorize_mul hjsym hj)

/-- C5: the log-transformed gradient ascent keeps every hyperparameter
strictly positive at every iteration, for any positive initial
hyperparameters, any learning rate and any gradient oracle. -/
theorem logSpaceAscent_pos {Key : Type} (grad : (Key → ℝ) → (Key → ℝ))
    (η : ℝ) :
    ∀ (t : ℕ) (θ : Key → ℝ), (∀ k, 0 < θ k) →
      ∀ k, 0 < logSpaceAscent grad η t θ k := by
  intro t
  induction t with
  | zero =>
    intro θ hθ k
    rw [logSpaceAscent]
    exact hθ k
  | succ t ih =>
    intro θ hθ k
    rw [logSpaceAscent]
    exact ih _ (fun k' => Real.exp_pos _) k

/-- Witness for C5: five log-space iterations with a huge negative learning
rate and an aggressive gradient still leave the hyperparameter positive. -/
theorem logSpaceAscent_pos_witness :
    0 < logSpaceAscent (fun θ => θ) (-1000) 5 (fun _ : Unit => (1 : ℝ)) () :=
  logSpaceAscent_pos (fun θ => θ) (-1000) 5 (fun _ => 1) (fun _ => one_pos) ()

/-- `argmaxAux` never returns a value worse than the accumulator. -/
theorem argmaxAux_le_init {α : Type} (f : α → ℝ) :
    ∀ (l : List α) (b : α), f b ≤ f (argmaxAux f l b) := by
  intro l
  induction l with
  | nil =>
    intro b
    rw [argmaxAux]
  | cons a l ih =>
    intro b
    rw [argmaxAux]
    by_cases h : f b < f a
    · rw [if_pos h]
      exact le_trans h.le (ih a)
    · rw [if_neg h]
      exact ih b

/-- `argmaxAux` never returns a value worse than any list element. -/
theorem argmaxAux_le_mem {α : Type} (f : α → ℝ) :
    ∀ (l : List α) (b a : α), a ∈ l → f a ≤ f (argmaxAux f l b) := by
  intro l
  induction l with
  | nil =>
    intro b a h
    exact absurd h (List.not_mem_nil a)
  | cons a₀ l ih =>
    intro b a h
    rw [argmaxAux]
    rcases List.mem_cons.mp h with rfl | h'
    · by_cases hc : f b < f a
      · rw [if_pos hc]
        exact argmaxAux_le_init f l a
      · rw [if_neg hc]
        exact le_trans (not_lt.mp hc) (argmaxAux_le_init f l b)
    · exact ih _ a h'

/-- Every grid position occurs in the row-major enumeration. -/
theorem mem_gridIndices (p : Fin 51 × Fin 50) : p ∈ gridIndices := by
  unfold gridIndices
  rw [List.mem_bind]
  exact ⟨p.1, List.mem_finRange _,
    List.mem_map.mpr ⟨p.2, List.mem_finRange _, rfl⟩⟩

/-- C9: the grid search over lengthscale ∈ linspace(1,20,51) and variance ∈
linspace(1,20,50) selects a pair attaining the maximum of the objective over
all grid points; the initial guess (1.0, 1.0) is the (0,0) grid point, so the
selected value is ≥ the objective at the initial guess. -/
theorem grid_search_attains_max (f : ℝ → ℝ → ℝ) :
    (∀ i j, f (lengthscales i) (variances j) ≤
      f (lengthscales (gridSearchBest f).1) (variances (gridSearchBest f).2))
    ∧ lengthscales 0 = 1 ∧ variances 0 = 1
    ∧ f 1 1 ≤
      f (lengthscales (gridSearchBest f).1)
        (variances (gridSearchBest f).2) := by
  have hmax : ∀ i j, f (lengthscales i) (variances j) ≤
      f (lengthscales (gridSearchBest f).1)
        (variances (gridSearchBest f).2) := by
    intro i j
    have h := argmaxAux_le_mem
      (fun p : Fin 51 × Fin 50 => f (lengthscales p.1) (variances p.2))
      gridIndices (0, 0) (i, j) (mem_gridIndices _)
    rw [gridSearchBest]
    exact h
  have h0 : lengthscales 0 = 1 := by
    simp [lengthscales]
  have h1 : variances 0 = 1 := by
    simp [variances]
  exact ⟨hmax, h0, h1, by simpa [h0, h1] using hmax 0 0⟩

/-- `zipWith` of the gradient update preserves the key list. -/
theorem map_fst_zipWith_update (lr : ℝ) :
    ∀ ps gs : List (String × ℝ), ps.length = gs.length →
      (List.zipWith (fun p g => (p.1, p.2 + lr * g.2)) ps gs).map Prod.fst =
        ps.map Prod.fst := by
  intro ps
  induction ps with
  | nil =>
    intro gs h
    simp
  | cons p ps ih =>
    intro gs h
    cases gs with
    | nil => exact absurd h (by simp)
    | cons g gs =>
      simp only [List.zipWith, List.map]
      rw [ih gs (by simpa using h)]

/-- C10: `gradient_update` succeeds on dictionaries with equal key lists,
returns a dictionary with exactly the same key list, and each value is
`params[k] + learning_rate * gradients[k]`. -/
theorem gradient_update_spec (params gradients : List (String × ℝ)) (lr : ℝ)
    (hk : params.map Prod.fst = gradients.map Prod.fst) :
    gradient_update params gradients lr =
      some (List.zipWith (fun p g => (p.1, p.2 + lr * g.2)) params gradients)
    ∧ (List.zipWith (fun p g => (p.1, p.2 + lr * g.2)) params
        gradients).map Prod.fst = params.map Prod.fst
    ∧ ∀ (i : ℕ) (hp : i < params.length) (hg : i < gradients.length)
        (hl : i < (List.zipWith (fun p g => (p.1, p.2 + lr * g.2)) params
          gradients).length),
        (List.zipWith (fun p g => (p.1, p.2 + lr * g.2)) params
            gradients).get ⟨i, hl⟩ =
          ((params.get ⟨i, hp⟩).1,
            (params.get ⟨i, hp⟩).2 + lr * (gradients.get ⟨i, hg⟩).2) := by
  have hlen : params.length = gradients.length := by
    have hh := congrArg List.length hk
    simpa using hh
  refine ⟨by rw [gradient_update, if_pos hk],
    map_fst_zipWith_update lr params gradients hlen, ?_⟩
  intro i hp hg hl
  simp [List.get_eq_getElem, List.getElem_zipWith]

/-- A successfully factorized matrix is positive semi-definite. -/
theorem factorize_psd {n : ℕ} {K L : Matrix (Fin n) (Fin n) ℝ}
    (hsym : ∀ i j, K i j = K j i) (h : factorize n K = some L) :
    ∀ x : Fin n → ℝ, 0 ≤ x ⬝ᵥ K *ᵥ x := by
  intro x
  rw [← factorize_mul hsym h, ← Matrix.mulVec_mulVec, Matrix.dotProduct_mulVec,
    ← Matrix.mulVec_transpose, dotProduct]
  exact Finset.sum_nonneg fun i _ => mul_self_nonneg _

/-- Dot products move a matrix onto the other side as its transpose. -/
theorem mulVec_dot_swap {n m : ℕ} (M : Matrix (Fin n) (Fin m) ℝ)
    (u : Fin m → ℝ) (w : Fin n → ℝ) :
    (M *ᵥ u) ⬝ᵥ w = u ⬝ᵥ (Mᵀ *ᵥ w) := by
  rw [dotProduct_comm, Matrix.dotProduct_mulVec, ← Matrix.mulVec_transpose,
    dotProduct_comm]

/-- The quadratic form through the Cholesky route: for a solved system, the
subtracted-variance term `z ⬝ᵥ z` (with `L·z = ks`) equals `ks ⬝ᵥ α` (with
`K·α = ks`). -/
theorem forwardSolve_sq_eq_dot {n : ℕ} {K L : Matrix (Fin n) (Fin n) ℝ}
    (hsym : ∀ i j, K i j = K j i) (h : factorize n K = some L)
    (ks : Fin n → ℝ) :
    forwardSolve n L ks ⬝ᵥ forwardSolve n L ks = ks ⬝ᵥ solve L ks := by
  have hlow := factorize_lower h
  have hd : ∀ i, L i i ≠ 0 := fun i => (factorize_diag_pos h i).ne'
  have hfwd := forwardSolve_correct L hlow hd ks
  have hback := backSolve_correct Lᵀ (fun i j hij => hlow j i hij)
    (fun i => hd i) (forwardSolve n L ks)
  calc forwardSolve n L ks ⬝ᵥ forwardSolve n L ks
      = forwardSolve n L ks ⬝ᵥ (Lᵀ *ᵥ solve L ks) := by
        rw [solve, hback]
    _ = (L *ᵥ forwardSolve n L ks) ⬝ᵥ solve L ks := by
        rw [mulVec_dot_swap]
    _ = ks ⬝ᵥ solve L ks := by rw [hfwd]

/-- Core monotonicity inequality: if `A·α = ks` and the bordered symmetric
positive semi-definite system `B·β = (kq, ks)` extends it, then
`ks ⬝ᵥ α ≤ (kq, ks) ⬝ᵥ β`. -/
theorem quadform_extend_mono {n : ℕ} {A : Matrix (Fin n) (Fin n) ℝ}
    (hA : ∀ i j, A i j = A j i)
    {B : Matrix (Fin (n + 1)) (Fin (n + 1)) ℝ}
    (hblock : ∀ i j : Fin n, B i.succ j.succ = A i j)
    (hb : ∀ i : Fin n, B 0 i.succ = B i.succ 0)
    (hpsd : ∀ x : Fin (n + 1) → ℝ, 0 ≤ x ⬝ᵥ B *ᵥ x)
    (ks : Fin n → ℝ) (kq : ℝ) (α : Fin n → ℝ) (β : Fin (n + 1) → ℝ)
    (hα : A *ᵥ α = ks) (hβ : B *ᵥ β = Fin.cons kq ks) :
    ks ⬝ᵥ α ≤ Fin.cons kq ks ⬝ᵥ β := by
  have hsymdot : ∀ u w : Fin n → ℝ, (A *ᵥ u) ⬝ᵥ w = u ⬝ᵥ (A *ᵥ w) := by
    intro u w
    have hAT : Aᵀ = A := by
      ext i j
      exact hA j i
    rw [mulVec_dot_swap, hAT]
  -- first row of the extended system
  have hrow0 : B 0 0 * β 0 + ∑ j : Fin n, B 0 j.succ * β j.succ = kq := by
    have h := congrFun hβ 0
    rwa [Matrix.mulVec, dotProduct, Fin.sum_univ_succ, Fin.cons_zero] at h
  -- remaining rows of the extended system
  have hrowt : ∀ i : Fin n,
      B i.succ 0 * β 0 + (A *ᵥ fun j => β j.succ) i = ks i := by
    intro i
    have h := congrFun hβ i.succ
    rw [Matrix.mulVec, dotProduct, Fin.sum_univ_succ, Fin.cons_succ] at h
    rw [Matrix.mulVec, dotProduct, ← h]
    congr 1
    exact Finset.sum_congr rfl fun j _ => by rw [hblock i j]
  -- A applied to the increment between the two solutions
  have hAδ : (A *ᵥ fun j => β j.succ - α j) =
      fun i => -(B 0 i.succ * β 0) := by
    funext i
    have hsplit : (A *ᵥ fun j => β j.succ - α j) i =
        (A *ᵥ fun j => β j.succ) i - (A *ᵥ α) i := by
      rw [Matrix.mulVec, dotProduct, Matrix.mulVec, dotProduct,
        Matrix.mulVec, dotProduct, ← Finset.sum_sub_distrib]
      exact Finset.sum_congr rfl fun j _ => by ring
    have h2 := hrowt i
    rw [hsplit, hα, hb i]
    linarith
  -- the PSD certificate at the vector (β 0, increment)
  set x : Fin (n + 1) → ℝ := Fin.cons (β 0) fun j => β j.succ - α j
    with hxdef
  have hx := hpsd x
  have hx0 : x 0 = β 0 := by
    rw [hxdef, Fin.cons_zero]
  have hxs : ∀ j : Fin n, x j.succ = β j.succ - α j := by
    intro j
    rw [hxdef, Fin.cons_succ]
  have hBx0 : (B *ᵥ x) 0 =
      B 0 0 * β 0 + ∑ j : Fin n, B 0 j.succ * (β j.succ - α j) := by
    rw [Matrix.mulVec, dotProduct, Fin.sum_univ_succ, hx0]
    exact congrArg (fun s => B 0 0 * β 0 + s)
      (Finset.sum_congr rfl fun j _ => by rw [hxs j])
  have hBxs : ∀ i : Fin n, (B *ᵥ x) i.succ = 0 := by
    intro i
    rw [Matrix.mulVec, dotProduct, Fin.sum_univ_succ, hx0]
    have htail : ∑ j : Fin n, B i.succ j.succ * x j.succ =
        (A *ᵥ fun j => β j.succ - α j) i := by
      rw [Matrix.mulVec, dotProduct]
      exact Finset.sum_congr rfl fun j _ => by rw [hxs j, hblock i j]
    rw [htail, hAδ]
    show B i.succ 0 * β 0 + -(B 0 i.succ * β 0) = 0
    rw [hb i]
    ring
  have hxval : x ⬝ᵥ (B *ᵥ x) =
      β 0 * (B 0 0 * β 0 + ∑ j : Fin n, B 0 j.succ * (β j.succ - α j)) := by
    rw [dotProduct, Fin.sum_univ_succ, hx0, hBx0]
    have hzero : ∑ i : Fin n, x i.succ * (B *ᵥ x) i.succ = 0 :=
      Finset.sum_eq_zero fun i _ => by rw [hBxs i, mul_zero]
    rw [hzero, add_zero]
  rw [hxval] at hx
  -- symmetric-kernel identity relating the two solutions
  have hks : ∑ i, ks i * (β i.succ - α i) =
      ∑ i, α i * -(B 0 i.succ * β 0) := by
    have hcalc : ks ⬝ᵥ (fun j => β j.succ - α j) =
        α ⬝ᵥ fun i => -(B 0 i.succ * β 0) := by
      rw [← hα, hsymdot α fun j => β j.succ - α j, hAδ]
    rw [dotProduct, dotProduct] at hcalc
    exact hcalc
  -- assemble the scalar inequality
  have hsplitks : ∑ i, ks i * (β i.succ - α i) =
      (∑ i, ks i * β i.succ) - ∑ i, ks i * α i := by
    rw [← Finset.sum_sub_distrib]
    exact Finset.sum_congr rfl fun i _ => by ring
  have hsplitb : ∑ j : Fin n, B 0 j.succ * (β j.succ - α j) =
      (∑ j : Fin n, B 0 j.succ * β j.succ) -
        ∑ j : Fin n, B 0 j.succ * α j := by
    rw [← Finset.sum_sub_distrib]
    exact Finset.sum_congr rfl fun j _ => by ring
  have hnegsum : ∑ i, α i * -(B 0 i.succ * β 0) =
      -(β 0 * ∑ j : Fin n, B 0 j.succ * α j) := by
    rw [Finset.mul_sum, ← Finset.sum_neg_distrib]
    exact Finset.sum_congr rfl fun i _ => by ring
  rw [hsplitb] at hx
  rw [hsplitks, hnegsum] at hks
  -- expand the goal into the same atoms
  rw [dotProduct, dotProduct, Fin.sum_univ_succ, Fin.cons_zero]
  have hconssum : ∑ i : Fin n,
      (Fin.cons kq ks : Fin (n + 1) → ℝ) i.succ * β i.succ =
      ∑ i, ks i * β i.succ :=
    Finset.sum_congr rfl fun i _ => by rw [Fin.cons_succ]
  rw [hconssum, ← hrow0]
  nlinarith [hx, hks]

set_option maxHeartbeats 1000000 in
/-- C6: with fixed kernel (symmetric, hyperparameters folded in) and noise
variance, extending the training set by one additional point never increases
the posterior predictive variance at any query point, whenever both
posteriors are computable (both factorizations succeed, the engine's notion
of the data being valid / non-redundant). -/
theorem posterior_variance_monotone {n m d : ℕ} (κ : Pt d → Pt d → ℝ)
    (hκ : ∀ p q, κ p q = κ q p)
    (X : Fin n → Pt d) (y : Fin n → ℝ) (x₀ : Pt d) (y₀ : ℝ)
    (Xt : Fin m → Pt d) (sn2 : ℝ)
    (μ₁ : Fin m → ℝ) (C₁ : Matrix (Fin m) (Fin m) ℝ)
    (μ₂ : Fin m → ℝ) (C₂ : Matrix (Fin m) (Fin m) ℝ)
    (h1 : predict_f_posterior κ X y Xt sn2 = some (μ₁, C₁))
    (h2 : predict_f_posterior κ (Fin.cons x₀ X) (Fin.cons y₀ y) Xt sn2 =
      some (μ₂, C₂)) :
    ∀ q, C₂ q q ≤ C₁ q q := by
  intro q
  rw [predict_f_posterior] at h1 h2
  obtain ⟨L, hL, hpair⟩ := Option.map_eq_some'.mp h1
  obtain ⟨L₂, hL₂, hpair₂⟩ := Option.map_eq_some'.mp h2
  have hC₁ : C₁ = fun q q' =>
      κ (Xt q) (Xt q') -
        forwardSolve n L (fun i => κ (Xt q) (X i)) ⬝ᵥ
          forwardSolve n L (fun i => κ (Xt q') (X i)) :=
    (congrArg Prod.snd hpair).symm
  have hC₂ : C₂ = fun q q' =>
      κ (Xt q) (Xt q') -
        forwardSolve (n + 1) L₂
            (fun i => κ (Xt q) ((Fin.cons x₀ X : Fin (n + 1) → Pt d) i)) ⬝ᵥ
          forwardSolve (n + 1) L₂
            (fun i => κ (Xt q') ((Fin.cons x₀ X : Fin (n + 1) → Pt d) i)) :=
    (congrArg Prod.snd hpair₂).symm
  have hsymA := gram_symm κ hκ sn2 X
  have hsymB := gram_symm κ hκ sn2 (Fin.cons x₀ X)
  have hzz := forwardSolve_sq_eq_dot hsymA hL fun i => κ (Xt q) (X i)
  have hzz₂ := forwardSolve_sq_eq_dot hsymB hL₂
    fun i => κ (Xt q) ((Fin.cons x₀ X : Fin (n + 1) → Pt d) i)
  have hblock : ∀ i j : Fin n,
      gram κ sn2 (Fin.cons x₀ X) i.succ j.succ = gram κ sn2 X i j := by
    intro i j
    unfold gram
    rw [Fin.cons_succ, Fin.cons_succ]
    congr 1
    by_cases h : i = j
    · subst h
      rw [if_pos rfl, if_pos rfl]
    · rw [if_neg fun hh => h (Fin.succ_injective _ hh), if_neg h]
  have hb : ∀ i : Fin n,
      gram κ sn2 (Fin.cons x₀ X) 0 i.succ =
        gram κ sn2 (Fin.cons x₀ X) i.succ 0 :=
    fun i => hsymB 0 i.succ
  have hpsd := factorize_psd hsymB hL₂
  have hcons : (fun i => κ (Xt q) ((Fin.cons x₀ X : Fin (n + 1) → Pt d) i)) =
      (Fin.cons (κ (Xt q) x₀) (fun i => κ (Xt q) (X i)) :
        Fin (n + 1) → ℝ) := by
    funext i
    induction i using Fin.cases with
    | zero => rw [Fin.cons_zero, Fin.cons_zero]
    | succ i' => rw [Fin.cons_succ, Fin.cons_succ]
  have hα := solve_correct hsymA hL fun i => κ (Xt q) (X i)
  have hβ := solve_correct hsymB hL₂
    fun i => κ (Xt q) ((Fin.cons x₀ X : Fin (n + 1) → Pt d) i)
  rw [hcons] at hβ hzz₂
  have hmono := quadform_extend_mono hsymA hblock hb hpsd
    (fun i => κ (Xt q) (X i)) (κ (Xt q) x₀)
    (solve L fun i => κ (Xt q) (X i))
    (solve L₂ (Fin.cons (κ (Xt q) x₀) (fun i => κ (Xt q) (X i)) :
      Fin (n + 1) → ℝ)) hα hβ
  have hle : forwardSolve n L (fun i => κ (Xt q) (X i)) ⬝ᵥ
      forwardSolve n L (fun i => κ (Xt q) (X i)) ≤
      forwardSolve (n + 1) L₂
          (Fin.cons (κ (Xt q) x₀) (fun i => κ (Xt q) (X i)) :
            Fin (n + 1) → ℝ) ⬝ᵥ
        forwardSolve (n + 1) L₂
          (Fin.cons (κ (Xt q) x₀) (fun i => κ (Xt q) (X i)) :
            Fin (n + 1) → ℝ) := by
    rw [hzz, hzz₂]
    exact hmono
  simp only [hC₁, hC₂]
  rw [hcons]
  exact sub_le_sub_left hle _

/-- Witness for C10 on concrete two-key dictionaries. -/
theorem gradient_update_spec_witness :
    gradient_update [("lengthscale", 1), ("variance", 2)]
        [("lengthscale", 3), ("variance", 4)] 2 =
      some [("lengthscale", 1 + 2 * 3), ("variance", 2 + 2 * 4)] := by
  rw [(gradient_update_spec [("lengthscale", 1), ("variance", 2)]
    [("lengthscale", 3), ("variance", 4)] 2 rfl).1]
  rfl

/-- Concrete evaluation of `factorize` on a positive 1×1 matrix. -/
theorem factorize_one_eval (a : ℝ) (h : 0 < a) :
    factorize 1 (fun _ _ => a) = some fun _ _ => Real.sqrt a := by
  rw [factorize, if_pos h, factorize, Option.map_some']
  congr 1
  funext i j
  induction i using Fin.cases with
  | succ i' => exact i'.elim0
  | zero =>
    induction j using Fin.cases with
    | succ j' => exact j'.elim0
    | zero => rw [Fin.cons_zero, Fin.cons_zero]

/-- Witness for C4 at a constant kernel on one training point: kernel value 1,
noise variance 3 (so `K = [[4]]`), target `y = [2]`. -/
theorem marginal_likelihood_closed_form_witness :
    marginal_likelihood (fun _ _ : Pt 1 => (1 : ℝ))
        ((fun _ _ => 0) : Fin 1 → Pt 1) ((fun _ => 2) : Fin 1 → ℝ) 3 =
      some (-(1 / 2) *
          (((fun _ => 2) : Fin 1 → ℝ) ⬝ᵥ
            (gram (fun _ _ : Pt 1 => (1 : ℝ)) 3
              ((fun _ _ => 0) : Fin 1 → Pt 1))⁻¹ *ᵥ
              ((fun _ => 2) : Fin 1 → ℝ)) -
        (1 / 2) * Real.log (gram (fun _ _ : Pt 1 => (1 : ℝ)) 3
          ((fun _ _ => 0) : Fin 1 → Pt 1)).det -
        (1 / 2 : ℝ) * Real.log (2 * Real.pi)) := by
  have hg : gram (fun _ _ : Pt 1 => (1 : ℝ)) 3
      ((fun _ _ => 0) : Fin 1 → Pt 1) = fun _ _ => (4 : ℝ) := by
    funext i j
    unfold gram
    rw [if_pos (Subsingleton.elim i j)]
    norm_num
  have hL : factorize 1 (gram (fun _ _ : Pt 1 => (1 : ℝ)) 3
      ((fun _ _ => 0) : Fin 1 → Pt 1)) = some fun _ _ => Real.sqrt 4 := by
    rw [hg]
    exact factorize_one_eval 4 (by norm_num)
  have h := marginal_likelihood_closed_form (fun _ _ : Pt 1 => (1 : ℝ))
    (fun _ _ => rfl) ((fun _ _ => 0) : Fin 1 → Pt 1)
    ((fun _ => 2) : Fin 1 → ℝ) 3 _ hL
  rw [h]
  norm_num

/-- Witness for C7 on `K = [[4]]`, `v = [3]`. -/
theorem solve_factorize_roundtrip_witness :
    solve (fun _ _ => Real.sqrt 4)
        (((fun _ _ => (4 : ℝ)) : Matrix (Fin 1) (Fin 1) ℝ) *ᵥ fun _ => 3) =
      fun _ => (3 : ℝ) :=
  solve_factorize_roundtrip
    (K := ((fun _ _ => (4 : ℝ)) : Matrix (Fin 1) (Fin 1) ℝ))
    (fun _ _ => rfl) (factorize_one_eval 4 (by norm_num)) fun _ => 3

/-- Witness for C8 on `K = [[-1]]`: the plain attempt and the jittered retry
both fail, and the overall operation propagates the failure. -/
theorem factorizeWithJitter_policy_witness :
    factorizeWithJitter ((fun _ _ => (-1 : ℝ)) :
      Matrix (Fin 1) (Fin 1) ℝ) = none := by
  have h1 : factorize 1 ((fun _ _ => (-1 : ℝ)) :
      Matrix (Fin 1) (Fin 1) ℝ) = none := by
    rw [factorize, if_neg]
    norm_num
  have h2 : factorize 1 (addJitter ((fun _ _ => (-1 : ℝ)) :
      Matrix (Fin 1) (Fin 1) ℝ)) = none := by
    rw [factorize, if_neg]
    unfold addJitter
    simp only [if_pos rfl, Fin.sum_univ_one]
    norm_num
  exact (factorizeWithJitter_policy ((fun _ _ => (-1 : ℝ)) :
    Matrix (Fin 1) (Fin 1) ℝ) fun _ _ => rfl).1.mpr ⟨h1, h2⟩

/-- Witness for C6: constant-zero kernel, noise variance 4, going from an
empty training set to a single training point; both posteriors evaluate
explicitly and the variance at the query point does not increase. -/
theorem posterior_variance_monotone_witness :
    predict_f_posterior (fun _ _ : Pt 1 => (0 : ℝ))
        (Fin.elim0 : Fin 0 → Pt 1) (Fin.elim0 : Fin 0 → ℝ)
        ((fun _ _ => 1) : Fin 1 → Pt 1) 4 =
      some (fun _ => 0, fun _ _ => 0)
    ∧ predict_f_posterior (fun _ _ : Pt 1 => (0 : ℝ))
        ((Fin.cons (fun _ => 0) Fin.elim0) : Fin 1 → Pt 1)
        ((Fin.cons 0 Fin.elim0) : Fin 1 → ℝ)
        ((fun _ _ => 1) : Fin 1 → Pt 1) 4 =
      some (fun _ => 0, fun _ _ => 0)
    ∧ ((fun _ _ => (0 : ℝ)) : Matrix (Fin 1) (Fin 1) ℝ) 0 0 ≤
        ((fun _ _ => (0 : ℝ)) : Matrix (Fin 1) (Fin 1) ℝ) 0 0 := by
  have h1 : predict_f_posterior (fun _ _ : Pt 1 => (0 : ℝ))
      (Fin.elim0 : Fin 0 → Pt 1) (Fin.elim0 : Fin 0 → ℝ)
      ((fun _ _ => 1) : Fin 1 → Pt 1) 4 =
      some (fun _ => 0, fun _ _ => 0) := by
    rw [predict_f_posterior, factorize, Option.map_some']
    refine congrArg some (Prod.ext ?_ ?_)
    · funext q
      simp [dotProduct]
    · funext q q'
      simp [dotProduct]
  have h2 : predict_f_posterior (fun _ _ : Pt 1 => (0 : ℝ))
      ((Fin.cons (fun _ => 0) Fin.elim0) : Fin 1 → Pt 1)
      ((Fin.cons 0 Fin.elim0) : Fin 1 → ℝ)
      ((fun _ _ => 1) : Fin 1 → Pt 1) 4 =
      some (fun _ => 0, fun _ _ => 0) := by
    have hg : gram (fun _ _ : Pt 1 => (0 : ℝ)) 4
        ((Fin.cons (fun _ => 0) Fin.elim0) : Fin 1 → Pt 1) =
        fun _ _ => (4 : ℝ) := by
      funext i j
      unfold gram
      induction i using Fin.cases with
      | succ i' => exact i'.elim0
      | zero =>
        induction j using Fin.cases with
        | succ j' => exact j'.elim0
        | zero =>
          rw [if_pos rfl]
          norm_num
    rw [predict_f_posterior, hg, factorize_one_eval 4 (by norm_num),
      Option.map_some']
    refine congrArg some (Prod.ext ?_ ?_)
    · funext q
      simp [dotProduct]
    · funext q q'
      simp [dotProduct, forwardSolve, Fin.sum_univ_one]
  exact ⟨h1, h2, posterior_variance_monotone (fun _ _ : Pt 1 => (0 : ℝ))
    (fun _ _ => rfl) (Fin.elim0 : Fin 0 → Pt 1) (Fin.elim0 : Fin 0 → ℝ)
    (fun _ => 0) 0 ((fun _ _ => 1) : Fin 1 → Pt 1) 4
    (fun _ => 0) (fun _ _ => 0) (fun _ => 0) (fun _ _ => 0) h1 h2 0⟩

end GPR
